import Mathlib

/-!
Verification of the flag-finder tool (src/flag_finder.py): a shallow
embedding of its matcher, scanners, reporter and command-line driver,
with theorems checking the behavioural claims of the specification.

Modelling conventions:
  - Python strings are Lean `String`s; character-level operations
    (regex scan, suffix tests, lexicographic comparison) are carried out
    on `String.data : List Char`, which mirrors Python's code-point view.
  - the mutable `FlagFinder` object is the record `FinderState`; every
    `print` call appends the printed payload to `FinderState.output`.
  - external collaborators (HTTP transport, HTML parser, URL joiner,
    filesystem) are explicit parameters of the scanning functions, as the
    spec treats them as black boxes.
-/

/-- The character `{` (code point 123), written via its code so that flag
text stays readable in strings elsewhere. -/
def lbrace : Char := Char.ofNat 123

/-- The character `}` (code point 125). -/
def rbrace : Char := Char.ofNat 125

/-- The fixed opening of every flag: the four characters `USU{` of the
compiled pattern `USU\{[^}]+\}` (src/flag_finder.py line 17). -/
def flagOpen : List Char := ['U', 'S', 'U', lbrace]

/-- One attempt of the regex `USU\{[^}]+\}` anchored at the start of `cs`:
`USU{`, then one or more characters other than `}` (the greedy `[^}]+`,
which cannot cross a `}`, so it is exactly the run up to the first `}`),
then the closing `}`.  Returns the matched characters and the remainder
after the match. -/
def matchFlag (cs : List Char) : Option (List Char × List Char) :=
  if cs.take 4 = flagOpen then
    let content := (cs.drop 4).takeWhile (fun c => c != rbrace)
    if content = [] then none
    else
      match (cs.drop 4).dropWhile (fun c => c != rbrace) with
      | [] => none
      | _ :: after => some (flagOpen ++ (content ++ [rbrace]), after)
  else none

/-- Fuel-driven scan of `re.findall`: try a match at each position, left to
right; after a match, continue right after it (non-overlapping matches).
The fuel only needs to cover the length of the list. -/
def findFlagsFuel : Nat → List Char → List String
  | 0, _ => []
  | _ + 1, [] => []
  | fuel + 1, c :: cs =>
    match matchFlag (c :: cs) with
    | some (m, rest) => String.mk m :: findFlagsFuel fuel rest
    | none => findFlagsFuel fuel cs

/-- All matches of the flag pattern in a character list, leftmost first. -/
def findFlagsL (cs : List Char) : List String :=
  findFlagsFuel cs.length cs

/-- Model of `self.flag_pattern.findall(text)` (src/flag_finder.py line 36). -/
def findFlags (text : String) : List String :=
  findFlagsL text.data

/-- `cs` begins with a full match of the flag pattern: `USU{`, a nonempty
brace-free content, and the closing `}`. -/
def startsWithFlag (cs : List Char) : Prop :=
  ∃ c rest, c ≠ [] ∧ rbrace ∉ c ∧ cs = flagOpen ++ (c ++ rbrace :: rest)

/-- Declarative reading of the spec's matcher contract: scanning left to
right, extract every non-overlapping substring matching the flag pattern,
each match stopping at the first `}` (its content contains no `}`); a
position where no match starts is skipped. -/
inductive ExtractSpec : List Char → List String → Prop where
  | nil : ExtractSpec [] []
  | found (c rest : List Char) (ms : List String) :
      c ≠ [] → rbrace ∉ c → ExtractSpec rest ms →
      ExtractSpec (flagOpen ++ (c ++ rbrace :: rest))
        (String.mk (flagOpen ++ (c ++ [rbrace])) :: ms)
  | skip (a : Char) (cs : List Char) (ms : List String) :
      ¬ startsWithFlag (a :: cs) → ExtractSpec cs ms →
      ExtractSpec (a :: cs) ms

theorem takeWhile_append_of_all {α : Type} {p : α → Bool} {l l' : List α}
    (h : ∀ a ∈ l, p a = true) :
    (l ++ l').takeWhile p = l ++ l'.takeWhile p := by
  induction l with
  | nil => simp
  | cons a l ih =>
    have ha : p a = true := h a (List.mem_cons_self a l)
    simp [List.takeWhile_cons, ha]
    exact ih fun b hb => h b (List.mem_cons_of_mem a hb)

theorem dropWhile_append_of_all {α : Type} {p : α → Bool} {l l' : List α}
    (h : ∀ a ∈ l, p a = true) :
    (l ++ l').dropWhile p = l'.dropWhile p := by
  induction l with
  | nil => simp
  | cons a l ih =>
    have ha : p a = true := h a (List.mem_cons_self a l)
    simp [List.dropWhile_cons, ha]
    exact ih fun b hb => h b (List.mem_cons_of_mem a hb)

theorem dropWhile_head_false {α : Type} {p : α → Bool} {l : List α} :
    ∀ {x : α} {xs : List α}, l.dropWhile p = x :: xs → p x = false := by
  induction l with
  | nil => intro x xs h; simp [List.dropWhile] at h
  | cons a l ih =>
    intro x xs h
    rw [List.dropWhile_cons] at h
    by_cases hp : p a = true
    · simp [hp] at h
      exact ih h
    · simp [Bool.not_eq_true] at hp
      simp [hp] at h
      obtain ⟨rfl, rfl⟩ := h
      exact hp

theorem matchFlag_sound {cs m rest : List Char}
    (h : matchFlag cs = some (m, rest)) :
    ∃ c, c ≠ [] ∧ rbrace ∉ c ∧ cs = flagOpen ++ (c ++ rbrace :: rest) ∧
      m = flagOpen ++ (c ++ [rbrace]) := by
  unfold matchFlag at h
  by_cases h4 : cs.take 4 = flagOpen
  · simp only [h4, if_pos] at h
    set content := (cs.drop 4).takeWhile (fun c => c != rbrace) with hcontent
    by_cases hc : content = []
    · simp [hc] at h
    · simp only [hc, if_neg, ite_false] at h
      rcases hd : (cs.drop 4).dropWhile (fun c => c != rbrace) with _ | ⟨x, after⟩
      · rw [hd] at h; simp at h
      · rw [hd] at h
        simp only [Option.some.injEq, Prod.mk.injEq] at h
        obtain ⟨hm, hafter⟩ := h
        have hx : x = rbrace := by
          have := dropWhile_head_false hd
          simpa using this
        refine ⟨content, hc, ?_, ?_, hm.symm⟩
        · intro hmem
          have := List.mem_takeWhile_imp hmem
          simp at this
        · have hsplit : content ++ (cs.drop 4).dropWhile (fun c => c != rbrace)
              = cs.drop 4 := List.takeWhile_append_dropWhile _ _
          rw [hd, hx, hafter] at hsplit
          have : cs = cs.take 4 ++ cs.drop 4 := (List.take_append_drop 4 cs).symm
          rw [this, h4, ← hsplit]
  · simp [h4] at h

theorem matchFlag_complete {c rest : List Char}
    (hne : c ≠ []) (hnb : rbrace ∉ c) :
    matchFlag (flagOpen ++ (c ++ rbrace :: rest))
      = some (flagOpen ++ (c ++ [rbrace]), rest) := by
  have hall : ∀ a ∈ c, (a != rbrace) = true := by
    intro a ha
    have : a ≠ rbrace := fun he => hnb (he ▸ ha)
    simpa using this
  have htake : (flagOpen ++ (c ++ rbrace :: rest)).take 4 = flagOpen := rfl
  have hdrop : (flagOpen ++ (c ++ rbrace :: rest)).drop 4 = c ++ rbrace :: rest := rfl
  have htw : (c ++ rbrace :: rest).takeWhile (fun a => a != rbrace) = c := by
    rw [takeWhile_append_of_all hall]
    simp [List.takeWhile_cons]
  have hdw : (c ++ rbrace :: rest).dropWhile (fun a => a != rbrace)
      = rbrace :: rest := by
    rw [dropWhile_append_of_all hall]
    simp [List.dropWhile_cons]
  unfold matchFlag
  rw [htake, if_pos rfl, hdrop, htw, hdw]
  simp [hne]

theorem matchFlag_none_iff (cs : List Char) :
    matchFlag cs = none ↔ ¬ startsWithFlag cs := by
  constructor
  · rintro h ⟨c, rest, hne, hnb, rfl⟩
    rw [matchFlag_complete hne hnb] at h
    exact Option.noConfusion h
  · intro h
    rcases ho : matchFlag cs with _ | ⟨m, rest⟩
    · rfl
    · obtain ⟨c, hne, hnb, hcs, _⟩ := matchFlag_sound ho
      exact absurd ⟨c, rest, hne, hnb, hcs⟩ h

theorem matchFlag_rest_length {c : Char} {cs m rest : List Char}
    (h : matchFlag (c :: cs) = some (m, rest)) :
    rest.length ≤ cs.length := by
  obtain ⟨c', hne, _, hcs, _⟩ := matchFlag_sound h
  have := congrArg List.length hcs
  simp [flagOpen, List.length_append] at this
  omega

theorem findFlagsFuel_congr :
    ∀ (n m : Nat) (cs : List Char), cs.length ≤ n → cs.length ≤ m →
      findFlagsFuel n cs = findFlagsFuel m cs := by
  intro n
  induction n with
  | zero =>
    intro m cs hn _
    have : cs = [] := List.eq_nil_of_length_eq_zero (Nat.le_zero.mp hn)
    subst this
    cases m <;> rfl
  | succ n ih =>
    intro m cs hn hm
    rcases cs with _ | ⟨c, cs⟩
    · cases m <;> rfl
    · rcases m with _ | m
      · simp at hm
      · simp only [findFlagsFuel]
        rcases ho : matchFlag (c :: cs) with _ | ⟨m₁, rest⟩
        · simp only [List.length_cons] at hn hm
          exact ih m cs (by omega) (by omega)
        · have hr := matchFlag_rest_length ho
          simp only [List.length_cons] at hn hm
          exact congrArg (fun l => String.mk m₁ :: l)
            (ih m rest (by omega) (by omega))

theorem findFlagsL_nil : findFlagsL [] = [] := rfl

theorem findFlagsL_cons (c : Char) (cs : List Char) :
    findFlagsL (c :: cs) =
      match matchFlag (c :: cs) with
      | some (m, rest) => String.mk m :: findFlagsL rest
      | none => findFlagsL cs := by
  show findFlagsFuel (cs.length + 1) (c :: cs) = _
  rcases ho : matchFlag (c :: cs) with _ | ⟨m₁, rest⟩
  · simp only [findFlagsFuel, ho]
    rfl
  · simp only [findFlagsFuel, ho]
    rw [findFlagsFuel_congr cs.length rest.length rest
      (matchFlag_rest_length ho) (Nat.le_refl _)]
    rfl

theorem brace_split_unique :
    ∀ {c₁ c₂ r₁ r₂ : List Char}, rbrace ∉ c₁ → rbrace ∉ c₂ →
      c₁ ++ rbrace :: r₁ = c₂ ++ rbrace :: r₂ → c₁ = c₂ ∧ r₁ = r₂ := by
  intro c₁
  induction c₁ with
  | nil =>
    intro c₂ r₁ r₂ _ hnb₂ h
    rcases c₂ with _ | ⟨y, c₂⟩
    · simpa using h
    · simp at h
      obtain ⟨hy, _⟩ := h
      exact absurd (hy ▸ List.mem_cons_self y c₂) hnb₂
  | cons x c₁ ih =>
    intro c₂ r₁ r₂ hnb₁ hnb₂ h
    rcases c₂ with _ | ⟨y, c₂⟩
    · simp at h
      obtain ⟨hx, _⟩ := h
      exact absurd (hx ▸ List.mem_cons_self x c₁) hnb₁
    · simp at h
      obtain ⟨hxy, hrest⟩ := h
      have hnb₁' : rbrace ∉ c₁ := fun hm => hnb₁ (List.mem_cons_of_mem x hm)
      have hnb₂' : rbrace ∉ c₂ := fun hm => hnb₂ (List.mem_cons_of_mem y hm)
      obtain ⟨hc, hr⟩ := ih hnb₁' hnb₂' hrest
      exact ⟨by rw [hxy, hc], hr⟩

theorem findFlagsL_extractSpec : ∀ (cs : List Char), ExtractSpec cs (findFlagsL cs) := by
  have main : ∀ (n : Nat) (cs : List Char), cs.length ≤ n →
      ExtractSpec cs (findFlagsL cs) := by
    intro n
    induction n with
    | zero =>
      intro cs hn
      have : cs = [] := List.eq_nil_of_length_eq_zero (Nat.le_zero.mp hn)
      subst this
      exact ExtractSpec.nil
    | succ n ih =>
      intro cs hn
      rcases cs with _ | ⟨c, cs⟩
      · exact ExtractSpec.nil
      · rw [findFlagsL_cons]
        rcases ho : matchFlag (c :: cs) with _ | ⟨m₁, rest⟩
        · simp only []
          apply ExtractSpec.skip
          · exact (matchFlag_none_iff _).mp ho
          · simp only [List.length_cons] at hn
            exact ih cs (by omega)
        · simp only []
          obtain ⟨c', hne, hnb, hcs, hm⟩ := matchFlag_sound ho
          have hlen := matchFlag_rest_length ho
          simp only [List.length_cons] at hn
          have hspec : ExtractSpec rest (findFlagsL rest) := ih rest (by omega)
          rw [hcs, hm]
          exact ExtractSpec.found c' rest _ hne hnb hspec
  exact fun cs => main cs.length cs (Nat.le_refl _)

theorem extractSpec_unique {cs : List Char} {ms₁ : List String}
    (h₁ : ExtractSpec cs ms₁) :
    ∀ {ms₂ : List String}, ExtractSpec cs ms₂ → ms₂ = ms₁ := by
  induction h₁ with
  | nil =>
    intro ms₂ h₂
    cases h₂
    rfl
  | found c rest ms hne hnb hrec ih =>
    intro ms₂ h₂
    generalize hgen : flagOpen ++ (c ++ rbrace :: rest) = t at h₂
    cases h₂ with
    | nil => simp [flagOpen] at hgen
    | found c₂ rest₂ ms₂' hne₂ hnb₂ h =>
      have hcc : c ++ rbrace :: rest = c₂ ++ rbrace :: rest₂ :=
        List.append_cancel_left hgen
      obtain ⟨hc, hr⟩ := brace_split_unique hnb hnb₂ hcc
      subst hc
      subst hr
      rw [ih h]
    | skip a₃ cs₃ ms₃ hns₃ h₃ =>
      exact absurd ⟨c, rest, hne, hnb, hgen.symm⟩ hns₃
  | skip a cs' ms hns hrec ih =>
    intro ms₂ h₂
    generalize hgen : a :: cs' = t at h₂
    cases h₂ with
    | nil => simp at hgen
    | found c₂ rest₂ ms₂' hne₂ hnb₂ h =>
      exact absurd ⟨c₂, rest₂, hne₂, hnb₂, hgen⟩ hns
    | skip a₂ cs₂ ms₂' hns₂ h =>
      obtain ⟨rfl, rfl⟩ : a = a₂ ∧ cs' = cs₂ := by
        constructor <;> injection hgen
      exact ih h

/-- The mutable state of a `FlagFinder` object (src/flag_finder.py lines
16-27) together with everything printed so far.  `found_flags` models the
Python set as an insertion-ordered duplicate-free list; `output` holds the
payload of every `print` call in order.  The constructor fields `crawl`,
`max_depth`, `visited_urls` and `base_domain` are never read by the
program (dead configuration per the spec) and are omitted. -/
structure FinderState where
  found_flags : List String
  verbose : Bool
  output : List String
deriving DecidableEq

/-- A `print(x)` call: append the printed payload to the transcript. -/
def emit (st : FinderState) (s : String) : FinderState :=
  { st with output := st.output ++ [s] }

/-- Model of `FlagFinder.log` (src/flag_finder.py lines 29-32): print the
message with a `[*]` marker only in verbose mode. -/
def log (st : FinderState) (message : String) : FinderState :=
  if st.verbose then emit st ("[*] " ++ message) else st

/-- The body of the loop in `find_flags_in_text` (src/flag_finder.py lines
38-42): a flag not yet recorded is added to the set and printed with its
source; a flag already recorded is ignored. -/
def reportFlag (source : String) (st : FinderState) (flag : String) : FinderState :=
  if flag ∈ st.found_flags then st
  else
    { st with
      found_flags := st.found_flags ++ [flag],
      output := st.output ++ ["\n[+] FLAG FOUND: " ++ flag, "    Source: " ++ source] }

/-- Model of `FlagFinder.find_flags_in_text` (src/flag_finder.py lines
34-42).  The `if matches:` guard of line 37 is dropped: folding over an
empty match list already does nothing. -/
def find_flags_in_text (text source : String) (st : FinderState) : FinderState :=
  (findFlags text).foldl (reportFlag source) st

/-- The pure effect of a scan on the recorded flag set: append, in order,
those candidates not yet present. -/
def addNew (fs : List String) (flags : List String) : List String :=
  flags.foldl (fun acc f => if f ∈ acc then acc else acc ++ [f]) fs

theorem addNew_nil (fs : List String) : addNew fs [] = fs := rfl

theorem addNew_cons (fs : List String) (f : String) (flags : List String) :
    addNew fs (f :: flags) = addNew (if f ∈ fs then fs else fs ++ [f]) flags := by
  simp [addNew, List.foldl_cons]

theorem addNew_append (fs : List String) (l₁ l₂ : List String) :
    addNew fs (l₁ ++ l₂) = addNew (addNew fs l₁) l₂ := by
  simp [addNew, List.foldl_append]

theorem addNew_mem (fs flags : List String) (f : String) :
    f ∈ addNew fs flags ↔ f ∈ fs ∨ f ∈ flags := by
  induction flags generalizing fs with
  | nil => simp [addNew_nil]
  | cons g flags ih =>
    rw [addNew_cons, ih]
    by_cases hg : g ∈ fs
    · simp only [hg, if_pos]
      constructor
      · rintro (h | h)
        · exact Or.inl h
        · exact Or.inr (List.mem_cons_of_mem g h)
      · rintro (h | h)
        · exact Or.inl h
        · rcases List.mem_cons.mp h with rfl | h
          · exact Or.inl hg
          · exact Or.inr h
    · simp only [hg, if_neg, not_false_iff, List.mem_append, List.mem_singleton,
        List.mem_cons]
      tauto

theorem addNew_subset (fs flags : List String) : fs ⊆ addNew fs flags := by
  intro f hf
  exact (addNew_mem fs flags f).mpr (Or.inl hf)

theorem addNew_of_subset {fs flags : List String} (h : ∀ f ∈ flags, f ∈ fs) :
    addNew fs flags = fs := by
  induction flags with
  | nil => rfl
  | cons g flags ih =>
    rw [addNew_cons, if_pos (h g (List.mem_cons_self g flags))]
    exact ih fun f hf => h f (List.mem_cons_of_mem g hf)

theorem addNew_nodup {fs : List String} (flags : List String) (h : fs.Nodup) :
    (addNew fs flags).Nodup := by
  induction flags generalizing fs with
  | nil => exact h
  | cons g flags ih =>
    rw [addNew_cons]
    by_cases hg : g ∈ fs
    · simp only [hg, if_pos]
      exact ih h
    · simp only [hg, if_neg, not_false_iff]
      refine ih ?_
      simp [List.nodup_append, h, hg]

theorem addNew_preserves {P : String → Prop} {fs flags : List String}
    (hfs : ∀ f ∈ fs, P f) (hflags : ∀ f ∈ flags, P f) :
    ∀ f ∈ addNew fs flags, P f := by
  intro f hf
  rcases (addNew_mem fs flags f).mp hf with h | h
  · exact hfs f h
  · exact hflags f h

theorem reportFlag_found (source : String) (st : FinderState) (flag : String) :
    (reportFlag source st flag).found_flags =
      if flag ∈ st.found_flags then st.found_flags else st.found_flags ++ [flag] := by
  unfold reportFlag
  split <;> simp_all

theorem find_flags_in_text_found (text source : String) (st : FinderState) :
    (find_flags_in_text text source st).found_flags =
      addNew st.found_flags (findFlags text) := by
  unfold find_flags_in_text addNew
  generalize findFlags text = l
  induction l generalizing st with
  | nil => rfl
  | cons f l ih =>
    simp only [List.foldl_cons]
    rw [ih]
    congr 1
    rw [reportFlag_found]

theorem find_flags_in_text_verbose (text source : String) (st : FinderState) :
    (find_flags_in_text text source st).verbose = st.verbose := by
  unfold find_flags_in_text
  generalize findFlags text = l
  induction l generalizing st with
  | nil => rfl
  | cons f l ih =>
    simp only [List.foldl_cons]
    rw [ih]
    unfold reportFlag
    split <;> rfl

theorem foldl_reportFlag_of_present {source : String} {l : List String}
    {st : FinderState} (h : ∀ f ∈ l, f ∈ st.found_flags) :
    l.foldl (reportFlag source) st = st := by
  induction l generalizing st with
  | nil => rfl
  | cons f l ih =>
    simp only [List.foldl_cons]
    have hf : f ∈ st.found_flags := h f (List.mem_cons_self f l)
    have hr : reportFlag source st f = st := by
      unfold reportFlag
      rw [if_pos hf]
    rw [hr]
    exact ih fun g hg => h g (List.mem_cons_of_mem f hg)

theorem find_flags_in_text_of_present {text source : String} {st : FinderState}
    (h : ∀ f ∈ findFlags text, f ∈ st.found_flags) :
    find_flags_in_text text source st = st :=
  foldl_reportFlag_of_present h

/-- A string of the exact flag shape: `USU{`, one or more non-`}`
characters, then `}`. -/
def WellFormedFlag (f : String) : Prop :=
  ∃ c, c ≠ [] ∧ rbrace ∉ c ∧ f.data = flagOpen ++ (c ++ [rbrace])

theorem extractSpec_wellformed {cs : List Char} {ms : List String}
    (h : ExtractSpec cs ms) : ∀ f ∈ ms, WellFormedFlag f := by
  induction h with
  | nil => intro f hf; simp at hf
  | found c rest ms hne hnb hrec ih =>
    intro f hf
    rcases List.mem_cons.mp hf with rfl | hf
    · exact ⟨c, hne, hnb, rfl⟩
    · exact ih f hf
  | skip a cs ms hns hrec ih => exact ih

theorem findFlags_wellformed (text : String) :
    ∀ f ∈ findFlags text, WellFormedFlag f :=
  extractSpec_wellformed (findFlagsL_extractSpec text.data)

/-- Python's `str.endswith`, evaluated on code points (case-sensitive
suffix comparison). -/
def endsWithStr (s suffix : String) : Bool :=
  decide (s.data.drop (s.data.length - suffix.data.length) = suffix.data)

/-- Python's `os.path.join` for the shapes the program produces (relative
child names, as `os.walk` yields them). -/
def pathJoin (root name : String) : String :=
  if root = "" then name
  else if endsWithStr root "/" then root ++ name
  else root ++ "/" ++ name

/-- A filesystem collaborator for `open(filepath, 'r', encoding='utf-8',
errors='ignore')` followed by `read()`: either the decoded text of the
file (lossy decoding never fails, so a readable file always yields a
string) or the message of the raised `OSError`. -/
def FileSys : Type := String → Except String String

/-- Model of `FlagFinder.scan_file` (src/flag_finder.py lines 44-52): on a
successful read, log and delegate to the matcher; on any failure, print a
diagnostic with the path and the underlying message and return with the
state otherwise untouched. -/
def scan_file (fs : FileSys) (filepath : String) (st : FinderState) : FinderState :=
  match fs filepath with
  | .ok content => find_flags_in_text content filepath (log st ("Scanning file: " ++ filepath))
  | .error e => emit st ("[-] Error reading " ++ filepath ++ ": " ++ e)

mutual
/-- A directory tree: named files with their (decoded) text content, and
named subdirectories.  `FSEntries` is the listing of one directory. -/
inductive FSEntry where
  | file (name content : String)
  | dir (name : String) (entries : FSEntries)
inductive FSEntries where
  | nil
  | cons (e : FSEntry) (rest : FSEntries)
end

/-- The `(root, name, content)` triples of the plain files directly inside
one directory, in listing order. -/
def filesOf (root : String) : FSEntries → List (String × String × String)
  | .nil => []
  | .cons (.file n c) rest => (root, n, c) :: filesOf root rest
  | .cons (.dir _ _) rest => filesOf root rest

mutual
/-- Files found under one entry (beyond the parent's own listing). -/
def walkEntry (root : String) : FSEntry → List (String × String × String)
  | .file _ _ => []
  | .dir n es => filesOf (pathJoin root n) es ++ walkEntries (pathJoin root n) es
/-- Files found under the subdirectories of a listing. -/
def walkEntries (root : String) : FSEntries → List (String × String × String)
  | .nil => []
  | .cons e rest => walkEntry root e ++ walkEntries root rest
end

/-- Model of `os.walk(directory)` flattened to the order in which
`scan_directory` visits files: each directory yields its files first, then
its subdirectories are walked depth-first in listing order. -/
def walk (root : String) (entries : FSEntries) : List (String × String × String) :=
  filesOf root entries ++ walkEntries root entries

/-- The reading side of the filesystem collaborator induced by a directory
tree: a path resolves to the content of the first walked file with that
joined path, and any other path raises. -/
def treeFS (root : String) (entries : FSEntries) : FileSys := fun p =>
  match (walk root entries).find? (fun t => pathJoin t.1 t.2.1 == p) with
  | some t => .ok t.2.2
  | none => .error ("[Errno 2] No such file or directory: " ++ p)

/-- The default extension filter of `scan_directory`
(src/flag_finder.py line 57). -/
def defaultExtensions : List String :=
  [".html", ".htm", ".js", ".css", ".php", ".txt", ".json", ".xml"]

/-- Model of `FlagFinder.scan_directory` (src/flag_finder.py lines 54-64):
walk the tree and delegate to `scan_file` every file whose name ends with
one of the allowed extensions.  The tree stands for the directory being
walked; `fs` is the filesystem `scan_file` reads through. -/
def scan_directory (fs : FileSys) (directory : String) (tree : FSEntries)
    (extensions : Option (List String)) (st : FinderState) : FinderState :=
  let exts := extensions.getD defaultExtensions
  let st := log st ("Scanning directory: " ++ directory)
  (walk directory tree).foldl
    (fun acc t =>
      if exts.any (fun ext => endsWithStr t.2.1 ext) then
        scan_file fs (pathJoin t.1 t.2.1) acc
      else acc)
    st

/-- What one `session.get(url, timeout=10)` call comes back with: either a
raised transport exception (connection error, timeout, ...) with its
message, or an HTTP response with its status code and body text. -/
inductive HttpResult where
  | transportError (msg : String)
  | response (status : Nat) (body : String)

/-- The HTTP transport collaborator: the outcome of fetching each URL. -/
def HttpClient : Type := String → HttpResult

/-- The message of the `requests.exceptions.HTTPError` that
`response.raise_for_status()` raises on a 4xx/5xx status. -/
def statusErrorMsg (status : Nat) (url : String) : String :=
  toString status ++ " Error for url: " ++ url

/-- Model of `FlagFinder.fetch_url_content` (src/flag_finder.py lines
66-75): log the fetch, perform the GET and `raise_for_status()` (which
raises exactly for statuses 400-599), return the body text on success and
`none` plus a printed diagnostic on any caught exception. -/
def fetch_url_content (http : HttpClient) (url : String) (st : FinderState) :
    Option String × FinderState :=
  let st := log st ("Fetching: " ++ url)
  match http url with
  | .transportError e =>
    (none, emit st ("[-] Error fetching " ++ url ++ ": " ++ e))
  | .response status body =>
    if 400 ≤ status ∧ status < 600 then
      (none, emit st ("[-] Error fetching " ++ url ++ ": " ++ statusErrorMsg status url))
    else (some body, st)

/-- The value component of `fetch_url_content`, which does not depend on
the state threaded through it. -/
def fetchResult (http : HttpClient) (url : String) : Option String :=
  match http url with
  | .transportError _ => none
  | .response status body =>
    if 400 ≤ status ∧ status < 600 then none else some body

/-- Python truthiness of an optional string: `None` and `""` are falsy. -/
def truthy : Option String → Bool
  | none => false
  | some s => s != ""

/-- A `<script>` element as the parser hands it over: its `src` attribute
and its direct string content, either possibly missing. -/
structure ScriptTag where
  src : Option String
  string : Option String

/-- A `<link rel="stylesheet">` element: its `href` attribute. -/
structure LinkTag where
  href : Option String

/-- A `<style>` element: its direct string content. -/
structure StyleTag where
  string : Option String

/-- What `scan_url` reads off the parsed document: script tags, stylesheet
links, style tags, and every string-type text node (comments included) in
document order. -/
structure ParsedDoc where
  scripts : List ScriptTag
  stylesheetLinks : List LinkTag
  styles : List StyleTag
  strings : List String

/-- The HTML parser collaborator (`BeautifulSoup(..., 'html.parser')`). -/
def HtmlParser : Type := String → ParsedDoc

/-- The URL resolver collaborator (`urllib.parse.urljoin`). -/
def UrlJoin : Type := String → String → String

/-- The body of the script loop of `scan_url` (src/flag_finder.py lines
94-101): a script with a (truthy) `src` is fetched and its body scanned
when truthy; otherwise a script with (truthy) direct content is scanned
inline. -/
def scriptStep (http : HttpClient) (join : UrlJoin) (url : String)
    (acc : FinderState) (script : ScriptTag) : FinderState :=
  if truthy script.src then
    let script_url := join url (script.src.getD "")
    let r := fetch_url_content http script_url acc
    if truthy r.1 then
      find_flags_in_text (r.1.getD "") (script_url ++ " (JavaScript)") r.2
    else r.2
  else if truthy script.string then
    find_flags_in_text (script.string.getD "") (url ++ " (Inline JavaScript)") acc
  else acc

/-- The body of the stylesheet-link loop (src/flag_finder.py lines
105-110). -/
def linkStep (http : HttpClient) (join : UrlJoin) (url : String)
    (acc : FinderState) (link : LinkTag) : FinderState :=
  if truthy link.href then
    let css_url := join url (link.href.getD "")
    let r := fetch_url_content http css_url acc
    if truthy r.1 then
      find_flags_in_text (r.1.getD "") (css_url ++ " (CSS)") r.2
    else r.2
  else acc

/-- The body of the style loop (src/flag_finder.py lines 114-116). -/
def styleStep (url : String) (acc : FinderState) (style : StyleTag) : FinderState :=
  if truthy style.string then
    find_flags_in_text (style.string.getD "") (url ++ " (Inline CSS)") acc
  else acc

/-- Model of `FlagFinder.scan_url` (src/flag_finder.py lines 77-121): fetch
the page; `if not html_content: return` (so a failed fetch or an empty
body aborts); otherwise scan the body as HTML, then external and inline
scripts, external stylesheets, inline styles, and every string node. -/
def scan_url (http : HttpClient) (parse : HtmlParser) (join : UrlJoin)
    (url : String) (st : FinderState) : FinderState :=
  let st := log st ("Scanning URL: " ++ url)
  let r := fetch_url_content http url st
  if truthy r.1 then
    let html := r.1.getD ""
    let st := find_flags_in_text html (url ++ " (HTML)") r.2
    let doc := parse html
    let st := doc.scripts.foldl (scriptStep http join url) st
    let st := doc.stylesheetLinks.foldl (linkStep http join url) st
    let st := doc.styles.foldl (styleStep url) st
    doc.strings.foldl
      (fun acc c => find_flags_in_text c (url ++ " (HTML Content)") acc) st
  else r.2

/-- The `(text, source label)` pairs a script tag contributes to the scan. -/
def scriptSources (http : HttpClient) (join : UrlJoin) (url : String)
    (script : ScriptTag) : List (String × String) :=
  if truthy script.src then
    let script_url := join url (script.src.getD "")
    let c := fetchResult http script_url
    if truthy c then [(c.getD "", script_url ++ " (JavaScript)")] else []
  else if truthy script.string then
    [(script.string.getD "", url ++ " (Inline JavaScript)")]
  else []

/-- The `(text, source label)` pairs a stylesheet link contributes. -/
def linkSources (http : HttpClient) (join : UrlJoin) (url : String)
    (link : LinkTag) : List (String × String) :=
  if truthy link.href then
    let css_url := join url (link.href.getD "")
    let c := fetchResult http css_url
    if truthy c then [(c.getD "", css_url ++ " (CSS)")] else []
  else []

/-- The `(text, source label)` pairs a style tag contributes. -/
def styleSources (url : String) (style : StyleTag) : List (String × String) :=
  if truthy style.string then
    [(style.string.getD "", url ++ " (Inline CSS)")]
  else []

/-- Every `(text, source label)` pair `scan_url` feeds to the matcher, in
order: nothing when the fetch fails or the body is empty; otherwise the
body as HTML followed by the contributions of scripts, stylesheet links,
styles and string nodes. -/
def scan_url_sources (http : HttpClient) (parse : HtmlParser) (join : UrlJoin)
    (url : String) : List (String × String) :=
  let b := fetchResult http url
  if truthy b then
    let html := b.getD ""
    (html, url ++ " (HTML)") ::
      ((parse html).scripts.flatMap (scriptSources http join url)
        ++ (parse html).stylesheetLinks.flatMap (linkSources http join url)
        ++ (parse html).styles.flatMap (styleSources url)
        ++ (parse html).strings.map (fun c => (c, url ++ " (HTML Content)")))
  else []

/-- The line of sixty `=` signs framing the summary. -/
def eqLine : String := String.mk (List.replicate 60 '=')

/-- Python's `sorted` on the flag set: lexicographic by code points, which
is the order of Lean's `String` instance. -/
def sortedFlags (flags : List String) : List String :=
  flags.mergeSort (fun a b => a ≤ b)

/-- Model of `FlagFinder.print_summary` (src/flag_finder.py lines
123-133). -/
def print_summary (st : FinderState) : FinderState :=
  let st₁ := emit st ("\n" ++ eqLine)
  let st₂ :=
    if st₁.found_flags ≠ [] then
      let stA := emit st₁ ("[+] Total flags found: " ++ toString st₁.found_flags.length)
      let stB := emit stA "\nAll flags:"
      (sortedFlags st₁.found_flags).foldl (fun acc f => emit acc ("  " ++ f)) stB
    else emit st₁ "[-] No flags found"
  emit st₂ eqLine

/-- The parsed command line (src/flag_finder.py lines 157-162): `--files`
is `nargs='+'`, so absence is modelled by the empty list (argparse cannot
produce an empty list, and Python treats `None` and `[]` alike here). -/
structure Args where
  url : Option String
  files : List String
  directory : Option String
  verbose : Bool

/-- Stand-in for the text `argparse.ArgumentParser.print_help` writes. -/
def usageText : String :=
  "usage: flag_finder.py [-h] [-u URL] [-f FILES [FILES ...]] [-d DIRECTORY] [-v]"

/-- A fresh `FlagFinder(verbose=...)`: no flags, nothing printed. -/
def initial_state (verbose : Bool) : FinderState :=
  { found_flags := [], verbose := verbose, output := [] }

/-- The truthiness of `args.url or args.files or args.directory`
(src/flag_finder.py line 164): an empty-string url or directory and an
empty file list are falsy. -/
def argsSelected (args : Args) : Bool :=
  truthy args.url || !args.files.isEmpty || truthy args.directory

/-- Model of `main` (src/flag_finder.py lines 136-183): with every input
selector falsy, print help and exit 1; otherwise run the requested scans
in the order url, files, directory, print the summary and exit 0.  The
collaborators say what the world answers; `dirTree` is the tree at
`args.directory`. -/
def main' (http : HttpClient) (parse : HtmlParser) (join : UrlJoin)
    (fs : FileSys) (dirTree : FSEntries) (args : Args) : Nat × FinderState :=
  if argsSelected args then
    let st := initial_state args.verbose
    let st := emit st "[*] Starting flag search..."
    let st := emit st "[*] Looking for pattern: USU\x7b...\x7d\n"
    let st := if truthy args.url then scan_url http parse join (args.url.getD "") st else st
    let st := args.files.foldl (fun acc f => scan_file fs f acc) st
    let st :=
      if truthy args.directory then
        scan_directory fs (args.directory.getD "") dirTree none st
      else st
    (0, print_summary st)
  else
    (1, { found_flags := [], verbose := args.verbose, output := [usageText] })

theorem emit_found (st : FinderState) (s : String) :
    (emit st s).found_flags = st.found_flags := rfl

theorem emit_verbose (st : FinderState) (s : String) :
    (emit st s).verbose = st.verbose := rfl

theorem emit_output (st : FinderState) (s : String) :
    (emit st s).output = st.output ++ [s] := rfl

theorem log_found (st : FinderState) (m : String) :
    (log st m).found_flags = st.found_flags := by
  unfold log
  split <;> rfl

theorem fetch_fst (http : HttpClient) (url : String) (st : FinderState) :
    (fetch_url_content http url st).1 = fetchResult http url := by
  rcases h : http url with e | ⟨status, body⟩
  · simp [fetch_url_content, fetchResult, h]
  · simp only [fetch_url_content, fetchResult, h]
    split <;> rfl

theorem fetch_found (http : HttpClient) (url : String) (st : FinderState) :
    ((fetch_url_content http url st).2).found_flags = st.found_flags := by
  rcases h : http url with e | ⟨status, body⟩
  · simp [fetch_url_content, h, emit_found, log_found]
  · simp only [fetch_url_content, h]
    split
    · simp [emit_found, log_found]
    · simp [log_found]

/-- Every flag text a list of scanned sources contributes, in scan order. -/
def sourcesFlags (srcs : List (String × String)) : List String :=
  srcs.flatMap (fun p => findFlags p.1)

theorem foldl_found_flags {α : Type} (g : α → List String)
    (step : FinderState → α → FinderState)
    (hstep : ∀ acc a, (step acc a).found_flags = addNew acc.found_flags (g a)) :
    ∀ (l : List α) (st : FinderState),
      (l.foldl step st).found_flags = addNew st.found_flags (l.flatMap g) := by
  intro l
  induction l with
  | nil => intro st; rfl
  | cons a l ih =>
    intro st
    simp only [List.foldl_cons, List.flatMap_cons]
    rw [ih, hstep, addNew_append]

theorem scriptStep_found (http : HttpClient) (join : UrlJoin) (url : String)
    (acc : FinderState) (sc : ScriptTag) :
    (scriptStep http join url acc sc).found_flags
      = addNew acc.found_flags (sourcesFlags (scriptSources http join url sc)) := by
  unfold scriptStep scriptSources
  by_cases hsrc : truthy sc.src = true
  · simp only [hsrc, if_pos]
    rw [fetch_fst]
    by_cases hc : truthy (fetchResult http (join url (sc.src.getD ""))) = true
    · simp only [hc, if_pos, sourcesFlags, List.flatMap_cons, List.flatMap_nil]
      rw [find_flags_in_text_found, fetch_found]
      simp
    · simp only [hc, if_neg, Bool.not_eq_true, sourcesFlags, List.flatMap_nil]
      rw [fetch_found]
      simp [addNew_nil, hc]
  · simp only [hsrc, if_neg, Bool.not_eq_true]
    by_cases hstr : truthy sc.string = true
    · simp only [hstr, if_pos, sourcesFlags, List.flatMap_cons, List.flatMap_nil]
      rw [find_flags_in_text_found]
      simp [hsrc]
    · simp [hsrc, hstr, sourcesFlags, addNew_nil]

theorem linkStep_found (http : HttpClient) (join : UrlJoin) (url : String)
    (acc : FinderState) (lk : LinkTag) :
    (linkStep http join url acc lk).found_flags
      = addNew acc.found_flags (sourcesFlags (linkSources http join url lk)) := by
  unfold linkStep linkSources
  by_cases hsrc : truthy lk.href = true
  · simp only [hsrc, if_pos]
    rw [fetch_fst]
    by_cases hc : truthy (fetchResult http (join url (lk.href.getD ""))) = true
    · simp only [hc, if_pos, sourcesFlags, List.flatMap_cons, List.flatMap_nil]
      rw [find_flags_in_text_found, fetch_found]
      simp
    · simp only [hc, if_neg, Bool.not_eq_true, sourcesFlags, List.flatMap_nil]
      rw [fetch_found]
      simp [addNew_nil, hc]
  · simp [hsrc, sourcesFlags, addNew_nil]

theorem styleStep_found (url : String) (acc : FinderState) (sty : StyleTag) :
    (styleStep url acc sty).found_flags
      = addNew acc.found_flags (sourcesFlags (styleSources url sty)) := by
  unfold styleStep styleSources
  by_cases hstr : truthy sty.string = true
  · simp only [hstr, if_pos, sourcesFlags, List.flatMap_cons, List.flatMap_nil]
    rw [find_flags_in_text_found]
    simp
  · simp [hstr, sourcesFlags, addNew_nil]

theorem scan_url_found (http : HttpClient) (parse : HtmlParser) (join : UrlJoin)
    (url : String) (st : FinderState) :
    (scan_url http parse join url st).found_flags
      = addNew st.found_flags (sourcesFlags (scan_url_sources http parse join url)) := by
  simp only [scan_url, scan_url_sources]
  rw [fetch_fst]
  by_cases hb : truthy (fetchResult http url) = true
  · simp only [hb, if_pos]
    rw [foldl_found_flags (fun c => findFlags c) _ (fun acc c => find_flags_in_text_found c _ acc)]
    rw [foldl_found_flags _ _ (styleStep_found url)]
    rw [foldl_found_flags _ _ (linkStep_found http join url)]
    rw [foldl_found_flags _ _ (scriptStep_found http join url)]
    rw [find_flags_in_text_found, fetch_found, log_found]
    simp only [sourcesFlags, List.flatMap_cons, List.flatMap_append,
      List.flatMap_assoc, List.map_eq_flatMap]
    simp [addNew_append, List.flatMap_assoc]
  · simp only [hb, if_neg, Bool.not_eq_true]
    rw [fetch_found, log_found]
    simp [hb, sourcesFlags, addNew_nil]

/-- The flags a single `scan_file` call can contribute: the matches of the
file's text when it is readable, nothing when reading raises. -/
def fileFlags (fs : FileSys) (p : String) : List String :=
  match fs p with
  | .ok c => findFlags c
  | .error _ => []

theorem scan_file_found (fs : FileSys) (p : String) (st : FinderState) :
    (scan_file fs p st).found_flags = addNew st.found_flags (fileFlags fs p) := by
  unfold scan_file fileFlags
  rcases h : fs p with c | e
  · simp [emit_found, addNew_nil]
  · rw [find_flags_in_text_found, log_found]

/-- The flags one walked file contributes to a directory scan: its matches
when its name passes the extension filter and it reads back, nothing
otherwise. -/
def dirStepFlags (fs : FileSys) (exts : List String)
    (t : String × String × String) : List String :=
  if exts.any (fun ext => endsWithStr t.2.1 ext) then
    fileFlags fs (pathJoin t.1 t.2.1)
  else []

theorem scan_directory_found (fs : FileSys) (directory : String)
    (tree : FSEntries) (extensions : Option (List String)) (st : FinderState) :
    (scan_directory fs directory tree extensions st).found_flags
      = addNew st.found_flags
          ((walk directory tree).flatMap
            (dirStepFlags fs (extensions.getD defaultExtensions))) := by
  simp only [scan_directory]
  rw [foldl_found_flags (dirStepFlags fs (extensions.getD defaultExtensions)) _ ?hstep]
  · rw [log_found]
  case hstep =>
    intro acc t
    unfold dirStepFlags
    split
    · exact scan_file_found fs _ acc
    · simp [addNew_nil]

theorem find_eq_of_nodup_map {α β : Type} [DecidableEq β] (g : α → β) :
    ∀ (l : List α), (l.map g).Nodup → ∀ t ∈ l, l.find? (fun x => g x == g t) = some t := by
  intro l
  induction l with
  | nil => intro _ t ht; simp at ht
  | cons a l ih =>
    intro hnd t ht
    simp only [List.map_cons, List.nodup_cons] at hnd
    rcases List.mem_cons.mp ht with rfl | ht
    · simp [List.find?_cons]
    · have hne : (g a == g t) = false := by
        have : g a ≠ g t := by
          intro he
          exact hnd.1 (he ▸ List.mem_map_of_mem g ht)
        simpa using this
      rw [List.find?_cons, hne]
      exact ih hnd.2 t ht

/-- The joined path of every file a walk visits, in visiting order. -/
def walkPaths (root : String) (entries : FSEntries) : List String :=
  (walk root entries).map (fun t => pathJoin t.1 t.2.1)

theorem treeFS_walk_ok {root : String} {tree : FSEntries}
    (hnd : (walkPaths root tree).Nodup) :
    ∀ t ∈ walk root tree, treeFS root tree (pathJoin t.1 t.2.1) = .ok t.2.2 := by
  intro t ht
  unfold treeFS
  have hnd' : ((walk root tree).map (fun x => pathJoin x.1 x.2.1)).Nodup := hnd
  rw [find_eq_of_nodup_map (fun x => pathJoin x.1 x.2.1) (walk root tree) hnd' t ht]

theorem foldl_emit_found (pre : String) :
    ∀ (l : List String) (st : FinderState),
      ((l.foldl (fun acc f => emit acc (pre ++ f)) st).found_flags = st.found_flags) := by
  intro l
  induction l with
  | nil => intro st; rfl
  | cons f l ih =>
    intro st
    simp only [List.foldl_cons]
    rw [ih]
    rfl

theorem foldl_emit_output (pre : String) :
    ∀ (l : List String) (st : FinderState),
      ((l.foldl (fun acc f => emit acc (pre ++ f)) st).output
        = st.output ++ l.map (fun f => pre ++ f)) := by
  intro l
  induction l with
  | nil => intro st; simp
  | cons f l ih =>
    intro st
    simp only [List.foldl_cons, List.map_cons]
    rw [ih]
    simp [emit_output]

theorem print_summary_found (st : FinderState) :
    (print_summary st).found_flags = st.found_flags := by
  simp only [print_summary]
  split
  · simp [emit_found, foldl_emit_found]
  · simp [emit_found]

theorem print_summary_output_empty {st : FinderState} (h : st.found_flags = []) :
    (print_summary st).output
      = st.output ++ ["\n" ++ eqLine, "[-] No flags found", eqLine] := by
  simp only [print_summary, emit_found]
  rw [if_neg (by simp [h])]
  simp [emit_output, List.append_assoc]

theorem print_summary_output_nonempty {st : FinderState} (h : st.found_flags ≠ []) :
    (print_summary st).output
      = st.output
        ++ ["\n" ++ eqLine, "[+] Total flags found: " ++ toString st.found_flags.length,
            "\nAll flags:"]
        ++ (sortedFlags st.found_flags).map (fun f => "  " ++ f)
        ++ [eqLine] := by
  simp only [print_summary, emit_found]
  rw [if_pos (by simp [h])]
  rw [emit_output, foldl_emit_output]
  simp [emit_output, emit_found, List.append_assoc]

theorem sortedFlags_perm (l : List String) : (sortedFlags l).Perm l :=
  List.mergeSort_perm l _

theorem sortedFlags_sorted (l : List String) :
    List.Sorted (fun a b : String => a ≤ b) (sortedFlags l) := by
  have h := @List.sorted_mergeSort String
    (fun a b : String => decide (a ≤ b))
    (fun a b c hab hbc => by
      simp only [decide_eq_true_eq] at *
      exact le_trans hab hbc)
    (fun a b => by
      simp only [Bool.or_eq_true, decide_eq_true_eq]
      exact le_total a b)
    l
  unfold sortedFlags
  refine h.imp ?_
  intro a b hab
  simpa using hab

theorem extractSpec_ne_nil_occurrence {cs : List Char} {ms : List String}
    (h : ExtractSpec cs ms) :
    ms ≠ [] → ∃ pre c post, c ≠ [] ∧ rbrace ∉ c ∧
      cs = pre ++ (flagOpen ++ (c ++ rbrace :: post)) := by
  induction h with
  | nil => intro hne; exact absurd rfl hne
  | found c rest ms hne hnb hrec ih =>
    intro _
    exact ⟨[], c, rest, hne, hnb, by simp⟩
  | skip a cs ms hns hrec ih =>
    intro hne
    obtain ⟨pre, c, post, h1, h2, h3⟩ := ih hne
    exact ⟨a :: pre, c, post, h1, h2, by simp [h3]⟩

theorem sourcesFlags_wellformed (srcs : List (String × String)) :
    ∀ f ∈ sourcesFlags srcs, WellFormedFlag f := by
  intro f hf
  simp only [sourcesFlags, List.mem_flatMap] at hf
  obtain ⟨p, _, hf⟩ := hf
  exact findFlags_wellformed p.1 f hf

theorem fileFlags_wellformed (fs : FileSys) (p : String) :
    ∀ f ∈ fileFlags fs p, WellFormedFlag f := by
  intro f hf
  unfold fileFlags at hf
  rcases h : fs p with e | c <;> rw [h] at hf
  · simp at hf
  · exact findFlags_wellformed c f (by simpa using hf)

/-- C1: for every input text, `find_flags_in_text`'s match list (the
`findall` of the flag pattern) is exactly what the spec's matcher contract
describes: the non-overlapping left-to-right matches of `USU{` + non-`}`
content + `}`, each stopping at the first `}` (witnessed by `ExtractSpec`
holding and being uniquely determined); in particular `USU{a}extra}`
yields exactly `USU{a}`, `USU{}` yields nothing, and a text with no
occurrence of the pattern yields nothing. -/
theorem find_flags_matcher_exact (s : String) :
    ExtractSpec s.data (findFlags s)
    ∧ (∀ ms, ExtractSpec s.data ms → ms = findFlags s)
    ∧ findFlags "USU\x7ba\x7dextra\x7d" = ["USU\x7ba\x7d"]
    ∧ findFlags "USU\x7b\x7d" = []
    ∧ ((¬ ∃ pre c post, c ≠ [] ∧ rbrace ∉ c ∧
          s.data = pre ++ (flagOpen ++ (c ++ rbrace :: post))) → findFlags s = []) := by
  refine ⟨findFlagsL_extractSpec s.data,
    fun ms h => extractSpec_unique (findFlagsL_extractSpec s.data) h,
    by decide, by decide, ?_⟩
  intro hno
  by_contra hne
  exact hno (extractSpec_ne_nil_occurrence (findFlagsL_extractSpec s.data) hne)

/-- C3: scanning is idempotent with respect to reporting: a second scan of
the same text leaves the state (flag set and transcript) exactly as after
the first, and a flag already recorded is ignored by the per-match step
(no print, no change). -/
theorem find_flags_idempotent (text source : String) (st : FinderState) :
    find_flags_in_text text source (find_flags_in_text text source st)
      = find_flags_in_text text source st
    ∧ (∀ flag ∈ st.found_flags, reportFlag source st flag = st) := by
  constructor
  · apply find_flags_in_text_of_present
    intro f hf
    rw [find_flags_in_text_found]
    exact (addNew_mem _ _ f).mpr (Or.inr hf)
  · intro flag hf
    unfold reportFlag
    rw [if_pos hf]

/-- C7: `scan_file` is total; on a read failure it prints one diagnostic
holding the path and the underlying message and leaves the flag set
untouched, and on a successful (lossy, hence never failing) decode it
proceeds to scan the text. -/
theorem scan_file_error_handling (fs : FileSys) (filepath : String) (st : FinderState) :
    (∀ e, fs filepath = .error e →
      scan_file fs filepath st
          = emit st ("[-] Error reading " ++ filepath ++ ": " ++ e)
        ∧ (scan_file fs filepath st).found_flags = st.found_flags
        ∧ (scan_file fs filepath st).output
            = st.output ++ ["[-] Error reading " ++ filepath ++ ": " ++ e])
    ∧ (∀ content, fs filepath = .ok content →
      scan_file fs filepath st
        = find_flags_in_text content filepath (log st ("Scanning file: " ++ filepath))) := by
  constructor
  · intro e he
    unfold scan_file
    rw [he]
    exact ⟨rfl, rfl, rfl⟩
  · intro c hc
    unfold scan_file
    rw [hc]

/-- C5 (amended): `fetch_url_content` returns the body exactly when the GET
completes without a transport error and with a status outside 400-599
(`raise_for_status` raises only for 4xx/5xx, so 1xx/3xx bodies are
returned too); every transport error and every 4xx/5xx status is reported
with one printed diagnostic and no content, with no distinction between
the two failure kinds. -/
theorem fetch_url_content_behaviour (http : HttpClient) (url : String) (st : FinderState) :
    (∀ e, http url = .transportError e →
      fetch_url_content http url st
        = (none, emit (log st ("Fetching: " ++ url))
            ("[-] Error fetching " ++ url ++ ": " ++ e)))
    ∧ (∀ status body, http url = .response status body →
      (400 ≤ status ∧ status < 600 →
        fetch_url_content http url st
          = (none, emit (log st ("Fetching: " ++ url))
              ("[-] Error fetching " ++ url ++ ": " ++ statusErrorMsg status url)))
      ∧ (¬ (400 ≤ status ∧ status < 600) →
        fetch_url_content http url st = (some body, log st ("Fetching: " ++ url)))) := by
  constructor
  · intro e he
    simp [fetch_url_content, he]
  · intro status body hr
    constructor
    · intro hs
      simp [fetch_url_content, hr, hs]
    · intro hs
      simp [fetch_url_content, hr, hs]

/-- C5 counterexample: a 304 response is not a 2xx status, yet
`fetch_url_content` returns its body (`raise_for_status` does not raise
below 400), so "returns the body exactly on 2xx" is false. -/
theorem fetch_url_content_non2xx_cex :
    fetchResult (fun _ => HttpResult.response 304 "stale") "http://e" = some "stale"
    ∧ ¬ (200 ≤ 304 ∧ 304 < 300) := by
  constructor
  · decide
  · decide

/-- C4 (amended): `scan_url` scans nothing exactly when the main-page fetch
fails or returns an empty body (`if not html_content` is also true for
`""`); whenever the fetch succeeds with a nonempty body, that body is the
first text scanned, labelled "(HTML)", and the resource-scanning steps
contribute the remaining scanned sources; a failed fetch leaves the state
exactly as the fetch reported it; and the flags a `scan_url` call records
are exactly those of its scanned sources. -/
theorem scan_url_abort_behaviour (http : HttpClient) (parse : HtmlParser)
    (join : UrlJoin) (url : String) (st : FinderState) :
    (scan_url_sources http parse join url = [] ↔
      (fetchResult http url = none ∨ fetchResult http url = some ""))
    ∧ (∀ body, fetchResult http url = some body → body ≠ "" →
        ∃ rest, scan_url_sources http parse join url
          = (body, url ++ " (HTML)") :: rest)
    ∧ (fetchResult http url = none →
        scan_url http parse join url st
          = (fetch_url_content http url (log st ("Scanning URL: " ++ url))).2)
    ∧ (scan_url http parse join url st).found_flags
        = addNew st.found_flags (sourcesFlags (scan_url_sources http parse join url)) := by
  refine ⟨?_, ?_, ?_, scan_url_found http parse join url st⟩
  · rcases hb : fetchResult http url with _ | body
    · simp [scan_url_sources, hb, truthy]
    · by_cases hbe : body = ""
      · subst hbe
        simp [scan_url_sources, hb, truthy]
      · simp [scan_url_sources, hb, truthy, hbe]
  · intro body hb hbe
    simp [scan_url_sources, hb, truthy, hbe]
  · intro hb
    simp only [scan_url]
    rw [fetch_fst, hb]
    simp [truthy]

/-- An HTTP world answering every URL with an empty 200 body. -/
def http200empty : HttpClient := fun _ => HttpResult.response 200 ""

/-- The parse of a document with no scripts, links, styles or text nodes. -/
def parseConst : HtmlParser := fun _ => ⟨[], [], [], []⟩

/-- A URL joiner returning the relative part unchanged. -/
def joinSnd : UrlJoin := fun _ r => r

/-- C4 counterexample: the main-page fetch succeeds (status 200, empty
body), yet `scan_url` scans nothing and the state is untouched — against
the claim that a successful fetch always has its body scanned as "(HTML)"
and the resource steps performed. -/
theorem scan_url_empty_body_cex :
    fetchResult http200empty "http://e" = some ""
    ∧ scan_url_sources http200empty parseConst joinSnd "http://e" = []
    ∧ scan_url http200empty parseConst joinSnd "http://e" (initial_state false)
        = initial_state false := by
  refine ⟨by decide, by decide, by decide⟩

/-- A two-flag state (insertion order deliberately not sorted). -/
def st2w : FinderState :=
  { found_flags := ["USU\x7bb\x7d", "USU\x7ba\x7d"], verbose := false, output := [] }

/-- C2: over the duplicate-free flag set every run maintains (the last
conjunct shows scanning preserves it), the summary lists every distinct
recorded flag exactly once, in lexicographically ascending order, and
prints the no-flags line instead when nothing was found. -/
theorem print_summary_sorted_unique (st : FinderState)
    (h : st.found_flags.Nodup) :
    (st.found_flags ≠ [] →
      ∃ l, (print_summary st).output
          = st.output
            ++ ["\n" ++ eqLine,
                "[+] Total flags found: " ++ toString st.found_flags.length,
                "\nAll flags:"]
            ++ l.map (fun f => "  " ++ f) ++ [eqLine]
        ∧ List.Sorted (fun a b : String => a ≤ b) l
        ∧ (∀ f, l.count f = if f ∈ st.found_flags then 1 else 0))
    ∧ (st.found_flags = [] →
        (print_summary st).output
          = st.output ++ ["\n" ++ eqLine, "[-] No flags found", eqLine])
    ∧ (∀ text source, (find_flags_in_text text source st).found_flags.Nodup) := by
  refine ⟨?_, fun he => print_summary_output_empty he, ?_⟩
  · intro hne
    refine ⟨sortedFlags st.found_flags, ?_, sortedFlags_sorted _, ?_⟩
    · rw [print_summary_output_nonempty hne]
    · intro f
      rw [(sortedFlags_perm st.found_flags).count_eq]
      by_cases hf : f ∈ st.found_flags
      · rw [if_pos hf]
        exact List.count_eq_one_of_mem h hf
      · rw [if_neg hf]
        exact List.count_eq_zero_of_not_mem hf
  · intro text source
    rw [find_flags_in_text_found]
    exact addNew_nodup _ h

/-- Witness for C2: at a concrete unsorted two-flag state the summary block
exists as described (and the no-flag branch is vacuous). -/
theorem print_summary_sorted_unique_witness :
    st2w.found_flags.Nodup
    ∧ (∃ l, (print_summary st2w).output
          = st2w.output
            ++ ["\n" ++ eqLine,
                "[+] Total flags found: " ++ toString st2w.found_flags.length,
                "\nAll flags:"]
            ++ l.map (fun f => "  " ++ f) ++ [eqLine]
        ∧ List.Sorted (fun a b : String => a ≤ b) l
        ∧ (∀ f, l.count f = if f ∈ st2w.found_flags then 1 else 0)) :=
  ⟨by decide, (print_summary_sorted_unique st2w (by decide)).1 (by decide)⟩

/-- C6: over the filesystem induced by the walked tree (paths assumed
distinct, as a real filesystem guarantees), `scan_directory` records
exactly the flags of the walked files — at any depth — whose names pass
the case-sensitive extension suffix filter, besides what was already
recorded; and omitting the filter means the default extension list. -/
theorem scan_directory_filter_exact (directory : String) (tree : FSEntries)
    (exts : List String) (st : FinderState)
    (hnd : (walkPaths directory tree).Nodup) :
    (∀ f, f ∈ (scan_directory (treeFS directory tree) directory tree
            (some exts) st).found_flags
        ↔ f ∈ st.found_flags
          ∨ ∃ t ∈ walk directory tree,
              (exts.any (fun ext => endsWithStr t.2.1 ext)) = true
              ∧ f ∈ findFlags t.2.2)
    ∧ (∀ fs : FileSys, scan_directory fs directory tree none st
        = scan_directory fs directory tree (some defaultExtensions) st) := by
  constructor
  · intro f
    rw [scan_directory_found, addNew_mem]
    simp only [List.mem_flatMap]
    constructor
    · rintro (h | ⟨t, ht, hf⟩)
      · exact Or.inl h
      · unfold dirStepFlags at hf
        by_cases hc : (exts.any (fun ext => endsWithStr t.2.1 ext)) = true
        · rw [Option.getD_some, if_pos hc] at hf
          unfold fileFlags at hf
          rw [treeFS_walk_ok hnd t ht] at hf
          exact Or.inr ⟨t, ht, hc, by simpa using hf⟩
        · rw [Option.getD_some, if_neg hc] at hf
          simp at hf
    · rintro (h | ⟨t, ht, hc, hf⟩)
      · exact Or.inl h
      · refine Or.inr ⟨t, ht, ?_⟩
        unfold dirStepFlags
        rw [Option.getD_some, if_pos hc]
        unfold fileFlags
        rw [treeFS_walk_ok hnd t ht]
        exact hf
  · intro fs
    rfl

/-- A small tree with a flagged `.js` file two directories deep and a
flagged `.txt` file at the top. -/
def exampleTree : FSEntries :=
  .cons (.dir "sub" (.cons (.dir "deep"
      (.cons (.file "a.js" "var f = \x22USU\x7bx1\x7d\x22;") .nil)) .nil))
    (.cons (.file "a.txt" "USU\x7bx2\x7d") .nil)

/-- Witness for C6: with filter `[".js"]` over the example tree only the
nested `.js` file's flag is recorded. -/
theorem scan_directory_filter_exact_witness :
    (walkPaths "site" exampleTree).Nodup
    ∧ (∀ f, f ∈ (scan_directory (treeFS "site" exampleTree) "site" exampleTree
            (some [".js"]) (initial_state false)).found_flags
        ↔ f ∈ (initial_state false).found_flags
          ∨ ∃ t ∈ walk "site" exampleTree,
              (([".js"] : List String).any (fun ext => endsWithStr t.2.1 ext)) = true
              ∧ f ∈ findFlags t.2.2)
    ∧ (scan_directory (treeFS "site" exampleTree) "site" exampleTree
        (some [".js"]) (initial_state false)).found_flags = ["USU\x7bx1\x7d"] :=
  ⟨by decide,
    (scan_directory_filter_exact "site" exampleTree [".js"]
      (initial_state false) (by decide)).1,
    by decide⟩

/-- C9: the recorded flag set only ever grows: no scanning operation and
not the summary removes an element, and every recorded flag has its line
in the printed summary. -/
theorem found_flags_monotone (text source filepath directory url : String)
    (fs : FileSys) (tree : FSEntries) (extensions : Option (List String))
    (http : HttpClient) (parse : HtmlParser) (join : UrlJoin) (st : FinderState) :
    st.found_flags ⊆ (find_flags_in_text text source st).found_flags
    ∧ st.found_flags ⊆ (scan_file fs filepath st).found_flags
    ∧ st.found_flags ⊆ (scan_directory fs directory tree extensions st).found_flags
    ∧ st.found_flags ⊆ (scan_url http parse join url st).found_flags
    ∧ (print_summary st).found_flags = st.found_flags
    ∧ (∀ f ∈ st.found_flags, ("  " ++ f) ∈ (print_summary st).output) := by
  refine ⟨?_, ?_, ?_, ?_, print_summary_found st, ?_⟩
  · rw [find_flags_in_text_found]
    exact addNew_subset _ _
  · rw [scan_file_found]
    exact addNew_subset _ _
  · rw [scan_directory_found]
    exact addNew_subset _ _
  · rw [scan_url_found]
    exact addNew_subset _ _
  · intro f hf
    have hne : st.found_flags ≠ [] := List.ne_nil_of_mem hf
    rw [print_summary_output_nonempty hne]
    have hmem : f ∈ sortedFlags st.found_flags :=
      (sortedFlags_perm st.found_flags).mem_iff.mpr hf
    simp only [List.mem_append, List.mem_map]
    exact Or.inl (Or.inr ⟨f, hmem, rfl⟩)

/-- A filesystem on which every read raises. -/
def fsErr : FileSys := fun _ => .error "Permission denied"

/-- C10: flag well-formedness (`USU{`, nonempty brace-free content, `}`)
is an invariant: a state all of whose recorded flags are well-formed keeps
only well-formed flags through every operation, and the initial state
satisfies it trivially. -/
theorem found_flags_wellformed (text source filepath directory url : String)
    (fs : FileSys) (tree : FSEntries) (extensions : Option (List String))
    (http : HttpClient) (parse : HtmlParser) (join : UrlJoin) (st : FinderState)
    (h : ∀ f ∈ st.found_flags, WellFormedFlag f) :
    (∀ f ∈ (find_flags_in_text text source st).found_flags, WellFormedFlag f)
    ∧ (∀ f ∈ (scan_file fs filepath st).found_flags, WellFormedFlag f)
    ∧ (∀ f ∈ (scan_directory fs directory tree extensions st).found_flags,
        WellFormedFlag f)
    ∧ (∀ f ∈ (scan_url http parse join url st).found_flags, WellFormedFlag f)
    ∧ (∀ f ∈ (print_summary st).found_flags, WellFormedFlag f)
    ∧ (∀ f ∈ (initial_state st.verbose).found_flags, WellFormedFlag f) := by
  refine ⟨?_, ?_, ?_, ?_, ?_, ?_⟩
  · rw [find_flags_in_text_found]
    exact addNew_preserves h (findFlags_wellformed text)
  · rw [scan_file_found]
    exact addNew_preserves h (fileFlags_wellformed fs filepath)
  · rw [scan_directory_found]
    refine addNew_preserves h ?_
    intro f hf
    simp only [List.mem_flatMap] at hf
    obtain ⟨t, _, hf⟩ := hf
    unfold dirStepFlags at hf
    by_cases hc : ((extensions.getD defaultExtensions).any
        (fun ext => endsWithStr t.2.1 ext)) = true
    · rw [if_pos hc] at hf
      exact fileFlags_wellformed fs _ f hf
    · rw [if_neg hc] at hf
      simp at hf
  · rw [scan_url_found]
    exact addNew_preserves h (sourcesFlags_wellformed _)
  · rw [print_summary_found]
    exact h
  · intro f hf
    simp [initial_state] at hf

/-- Witness for C10 at the empty initial state with concrete collaborators. -/
theorem found_flags_wellformed_witness :
    (∀ f ∈ (initial_state false).found_flags, WellFormedFlag f)
    ∧ (∀ f ∈ (print_summary (initial_state false)).found_flags, WellFormedFlag f) :=
  ⟨by simp [initial_state],
    (found_flags_wellformed "t" "s" "p" "d" "u" fsErr .nil none http200empty
      parseConst joinSnd (initial_state false)
      (by simp [initial_state])).2.2.2.2.1⟩

/-- The scanning portion of one run: whatever the url selector requests,
then every listed file, then whatever the directory selector requests —
exactly the order `main` issues them in. -/
def scanPhases (http : HttpClient) (parse : HtmlParser) (join : UrlJoin)
    (fs : FileSys) (dirTree : FSEntries) (args : Args) (st : FinderState) :
    FinderState :=
  let st := if truthy args.url then scan_url http parse join (args.url.getD "") st else st
  let st := args.files.foldl (fun acc f => scan_file fs f acc) st
  if truthy args.directory then
    scan_directory fs (args.directory.getD "") dirTree none st
  else st

/-- C8 (amended): when url, files and directory are all falsy (absent, or
an empty string for url/directory — Python truthiness treats `''` as not
given), the program prints usage and exits 1 having scanned nothing;
otherwise it exits 0 — whatever the collaborators answered, so even when
scans reported errors — after running the requested truthy scans in the
order url, files, directory, and printing the summary. -/
theorem main_cli_behaviour (http : HttpClient) (parse : HtmlParser)
    (join : UrlJoin) (fs : FileSys) (dirTree : FSEntries) (args : Args) :
    (argsSelected args = false →
      main' http parse join fs dirTree args
        = (1, { found_flags := [], verbose := args.verbose, output := [usageText] }))
    ∧ (argsSelected args = true →
      main' http parse join fs dirTree args
        = (0, print_summary (scanPhases http parse join fs dirTree args
            (emit (emit (initial_state args.verbose) "[*] Starting flag search...")
              "[*] Looking for pattern: USU\x7b...\x7d\n"))))
    ∧ ((main' http parse join fs dirTree args).1 = 0 ↔ argsSelected args = true)
    ∧ (argsSelected args = false ↔
        truthy args.url = false ∧ args.files = [] ∧ truthy args.directory = false) := by
  refine ⟨?_, ?_, ?_, ?_⟩
  · intro hc
    unfold main'
    rw [if_neg (by rw [hc]; simp)]
  · intro hc
    unfold main'
    rw [if_pos hc]
    rfl
  · by_cases hc : argsSelected args = true
    · unfold main'
      rw [if_pos hc]
      simp [hc]
    · have hc' : argsSelected args = false := by
        simpa using hc
      unfold main'
      rw [if_neg (by rw [hc']; simp)]
      simp [hc']
  · unfold argsSelected
    simp [List.isEmpty_iff, and_assoc]

/-- The command line `-u ''`: the url option given, as the empty string. -/
def argsEmptyUrl : Args :=
  { url := some "", files := [], directory := none, verbose := false }

/-- C8 counterexample: with `-u ''` the url option is given, so by the
claim the program should run the scans and exit 0; instead it treats the
empty string as absent, prints usage and exits 1. -/
theorem main_cli_empty_url_cex :
    argsEmptyUrl.url ≠ none
    ∧ (main' http200empty parseConst joinSnd fsErr .nil argsEmptyUrl).1 = 1
    ∧ (main' http200empty parseConst joinSnd fsErr .nil argsEmptyUrl).2.output
        = [usageText] := by
  refine ⟨by decide, by decide, by decide⟩
